import Mathlib

/-!
Verification development for `zoom_batch_downloader.py`.

This file gives a shallow embedding, in Lean 4, of the parts of the script
that the specification talks about:

* the date-window partitioning of `get_meeting_uuids`,
* the Friday end-date adjustment in `main`,
* the error handling of `get_meetings`,
* the topic/type filtering and counting of `download_recordings_from_meetings`,
* the name-collision probing, existing-file tolerance check, minimum-size
  check and temp-then-rename download of `download_recording_file`
  (together with `create_path`),
* the silence-log parsing of `process_videos`.

The filesystem is modelled as a finite association list from path strings to
file sizes, and the network transfer is modelled by an oracle that gives the
number of bytes actually transferred for a URL.  Machine integers of the
script are `Nat`/`Int` (Python integers are unbounded, so no wrap-around is
needed).  Fallible steps (a size-mismatch abort, a malformed log line) are
modelled with `Option`/`Except`.

`utils.py` and `zoom_client.py` are not part of the sources; the few pieces
of behaviour taken from them (`utils.slugify`, the size verification done by
`utils.download_with_progress`) are modelled from the specification's words
and are marked as such in their doc comments.
-/

/-! ### Generic list/string helpers (embedding Python string primitives) -/

/-- Boolean prefix test on character lists (Python `str.startswith`). -/
def isPrefixB : List Char → List Char → Bool
  | [], _ => true
  | _ :: _, [] => false
  | a :: as, b :: bs => a = b && isPrefixB as bs

/-- Boolean substring test on character lists: `containsList n h` holds when
`n` occurs contiguously inside `h` (Python `n in h`). -/
def containsList (n : List Char) : List Char → Bool
  | [] => n.isEmpty
  | c :: t => isPrefixB n (c :: t) || containsList n t

/-- Python substring test `needle in hay` on strings. -/
def containsSub (hay needle : String) : Bool :=
  containsList needle.data hay.data

/-- Split a character list at every occurrence of `c` (Python `str.split(c)`
for a one-character separator).  The result is never empty. -/
def splitCh (c : Char) : List Char → List (List Char)
  | [] => [[]]
  | x :: xs =>
    match splitCh c xs with
    | [] => [[x]]
    | y :: ys => if x = c then [] :: y :: ys else (x :: y) :: ys

/-- Python `str.strip()`: drop whitespace from both ends. -/
def stripWs (l : List Char) : List Char :=
  ((l.dropWhile Char.isWhitespace).reverse.dropWhile Char.isWhitespace).reverse

/-- Python `str.lower()` (the file extensions involved are ASCII). -/
def toLowerStr (s : String) : String :=
  String.mk (s.data.map Char.toLower)

/-- Python `s[-n:]`: the last `n` characters of a string (the whole string
when it is shorter than `n`). -/
def lastChars (n : Nat) (s : String) : String :=
  String.mk ((s.data.reverse.take n).reverse)

/-! ### Decimal rendering of naturals (Python `str(i)` inside f-strings) -/

/-- The decimal digit character for `d < 10`. -/
def decDigit (d : Nat) : Char :=
  match d with
  | 0 => '0' | 1 => '1' | 2 => '2' | 3 => '3' | 4 => '4'
  | 5 => '5' | 6 => '6' | 7 => '7' | 8 => '8' | _ => '9'

/-- Fuelled digit accumulation for `natStr`; `fuel ≥ n` suffices. -/
def natStrAux : Nat → Nat → List Char
  | 0, n => [decDigit n]
  | fuel + 1, n => if n < 10 then [decDigit n] else natStrAux fuel (n / 10) ++ [decDigit (n % 10)]

/-- Decimal rendering of a natural number, as Python `str(i)` produces. -/
def natStr (n : Nat) : String :=
  String.mk (natStrAux n n)

/-- The numeric value of a digit string, used to prove `natStr` injective. -/
def decVal (l : List Char) : Nat :=
  l.foldl (fun a c => a * 10 + (c.toNat - 48)) 0

/-! ### The filesystem model

The only persistent state the script owns is the output file tree; we model
it as an association list from absolute path strings to file sizes in bytes.
`fsInsert` overwrites, as writing a file does. -/

/-- A filesystem: finitely many files, each with a byte size. -/
abbrev Fs : Type := List (String × Nat)

/-- Size of the file at `p`, if one exists (`os.path.exists` +
`os.path.getsize`). -/
def fsLookup (fs : Fs) (p : String) : Option Nat :=
  match fs with
  | [] => none
  | (q, n) :: rest => if q = p then some n else fsLookup rest p

/-- Delete the file at `p` (`os.remove`). -/
def fsErase (fs : Fs) (p : String) : Fs :=
  List.filter (fun e => !(e.1 = p : Bool)) fs

/-- Create or overwrite the file at `p` with `n` bytes. -/
def fsInsert (fs : Fs) (p : String) (n : Nat) : Fs :=
  (p, n) :: fsErase fs p

/-- The paths present in the filesystem. -/
def fsKeys (fs : Fs) : List String :=
  List.map Prod.fst fs

/-- `abs(a - b)` on Python integers, for byte sizes. -/
def sizeDist (a b : Nat) : Nat :=
  max a b - min a b

/-! ### Paths and names -/

/-- `os.path.join` of one extra component (POSIX flavour). -/
def pathJoin (a b : String) : String :=
  a ++ "/" ++ b

/-- `os.path.splitext`: split a file name into stem and extension at the
last dot, except that a run of leading dots never starts an extension. -/
def splitext (s : String) : String × String :=
  let cs := s.data
  match (cs.reverse.findIdx? (fun c => c = '.')) with
  | none => (s, "")
  | some r =>
    let k := cs.length - 1 - r
    if 0 < k ∧ (cs.take k).any (fun c => !(c = '.' : Bool)) then
      -- at least one non-dot character strictly before the last dot
      (String.mk (cs.take k), String.mk (cs.drop k))
    else (s, "")

/-- Characters removed from file names by
`re.sub(r'[\\/*?:"<>|]', "", file_name)` (line 270). -/
def unsafeChars : List Char := ['\\', '/', '*', '?', ':', '"', '<', '>', '|']

/-- The sanitised file name: every unsafe character deleted. -/
def sanitizeName (s : String) : String :=
  String.mk (s.data.filter (fun c => !(unsafeChars.contains c)))

/-- Collapse every run of dashes to a single dash (part of `slugify`). -/
def collapseDash : List Char → List Char
  | [] => []
  | c :: t =>
    let r := collapseDash t
    if c = '-' then
      match r with
      | '-' :: _ => r
      | _ => c :: r
    else c :: r

/-- Modelled from the spec: `utils.slugify` is not in the sources
(`utils.py` is missing); the glossary describes a slug as "a normalized,
lowercase, separator-unified form of a free-text string".  We model it as:
lower-case every alphanumeric character, turn every other character into a
dash, collapse dash runs, and strip dashes from both ends. -/
def slugify (s : String) : String :=
  let mapped := s.data.map (fun c => if c.isAlphanum then c.toLower else '-')
  let collapsed := collapseDash mapped
  String.mk (((collapsed.dropWhile (fun c => c = '-')).reverse.dropWhile (fun c => c = '-')).reverse)

/-! ### Configuration

The fields of `CONFIG` that the embedded functions read. -/

/-- The configuration surface used by the download path. -/
structure Config where
  /-- `CONFIG.MIN_FILE_SIZE`, in megabytes. -/
  minFileSize : Nat
  /-- `CONFIG.FILE_SIZE_MISMATCH_TOLERANCE`, in bytes. -/
  tolerance : Nat
  /-- `CONFIG.GROUP_BY_TOPIC`. -/
  groupByTopic : Bool
  /-- `CONFIG.GROUP_BY_RECORDING`. -/
  groupByRecording : Bool
  /-- `CONFIG.USE_MEETING_TOPIC_NAME`. -/
  useTopicName : Bool
  /-- `CONFIG.INCLUDE_PARTICIPANT_AUDIO`. -/
  includeParticipantAudio : Bool
  /-- `CONFIG.TOPICS`. -/
  topics : List String
  /-- `CONFIG.RECORDING_FILE_TYPES`. -/
  fileTypes : List String
deriving DecidableEq

/-! ### `create_path` and collision probing (lines 283-291, 315-324) -/

/-- `create_path(host_folder, file_name, topic, recording_name)`:
optional grouping segments, then the file name.  Directory creation
(`os.makedirs`) does not change the file map and is not modelled. -/
def create_path (cfg : Config) (host_folder file_name topic recording_name : String) : String :=
  let folder1 := if cfg.groupByTopic then pathJoin host_folder topic else host_folder
  let folder2 := if cfg.groupByRecording then pathJoin folder1 recording_name else folder1
  pathJoin folder2 file_name

/-- The path probed by the collision loop for index `i`:
`os.path.join(host_folder, f'{base_name}_{i}{ext}')` (line 288).  Note the
loop probes directly under `host_folder`, not under the grouped folder. -/
def probePath (host base ext : String) (i : Nat) : String :=
  pathJoin host (base ++ "_" ++ natStr i ++ ext)

/-- The collision `while` loop with explicit fuel; `fs.length + 1` probes
always suffice (pigeonhole, proved below). -/
def probeIndexAux (fs : Fs) (host base ext : String) : Nat → Nat → Nat
  | 0, i => i
  | fuel + 1, i =>
    if (fsLookup fs (probePath host base ext i)).isSome then
      probeIndexAux fs host base ext fuel (i + 1)
    else i

/-- The suffix index chosen by the collision loop of lines 285-290:
the first `i ≥ 1` such that `host_folder/{base}_{i}{ext}` does not exist. -/
def probeIndex (fs : Fs) (host base ext : String) : Nat :=
  probeIndexAux fs host base ext (fs.length + 1) 1

/-- Lines 283-291: the (possibly suffixed) file name the downloader ends up
using.  If the initially computed destination path exists, the collision
loop picks a fresh suffixed name; otherwise the name is kept. -/
def resolveFileName (cfg : Config) (fs : Fs) (host fname topic : String) : String :=
  if (fsLookup fs (create_path cfg host fname topic fname)).isSome then
    let be := splitext fname
    be.1 ++ "_" ++ natStr (probeIndex fs host be.1 be.2) ++ be.2
  else fname

/-! ### `download_recording_file` (lines 268-313) -/

/-- Observable filesystem/network actions of one `download_recording_file`
call, in order. -/
inductive FsEvent where
  /-- `os.remove(file_path)` on a size-mismatched existing file (line 298). -/
  | removed (path : String)
  /-- The streaming transfer into the temporary path (lines 303-309). -/
  | transfer (url tmpPath : String) (expectedSize : Nat)
  /-- `os.rename(tmp_file_path, file_path)` (line 311). -/
  | renamed (tmpPath destPath : String)
deriving DecidableEq

/-- Result of one `download_recording_file` call: `ret = some b` is the
Python return value (`True` = downloaded, `False` = skipped), `ret = none`
means the call raised (size mismatch on the finished transfer, which aborts
the run).  `finalName`/`finalPath` are the resolved destination name and
path; they are only meaningful when the minimum-size check passed (the
script never computes a path for an undersized file, recorded here as `""`). -/
structure DRFOut where
  ret : Option Bool
  fs : Fs
  events : List FsEvent
  finalName : String
  finalPath : String
deriving DecidableEq

/-- The streaming download and rename, lines 300-311.  `actual` is the
number of bytes the transfer put into the temporary file.  Modelled from the
spec for the missing `utils.download_with_progress`: the transferred size is
verified against the expected size within the same tolerance, and a mismatch
propagates as an error (aborting the run) with the temporary file left
behind; on success the temporary file is renamed onto the destination.
`utils.wait_for_disk_space` blocks but changes no file, so it has no
representation here. -/
def dlStep (cfg : Config) (fs : Fs) (evs : List FsEvent) (fname path url : String)
    (fsize actual : Nat) : DRFOut :=
  let tmp := path ++ ".tmp"
  let fs1 := fsInsert fs tmp actual
  let evs1 := evs ++ [FsEvent.transfer url tmp fsize]
  if cfg.tolerance < sizeDist actual fsize then
    ⟨none, fs1, evs1, fname, path⟩
  else
    ⟨some true, fsInsert (fsErase fs1 tmp) path actual, evs1 ++ [FsEvent.renamed tmp path], fname, path⟩

/-- `download_recording_file(download_url, host_folder, file_name, file_size,
topic)`, lines 268-313, acting on the filesystem `fs`; `actual` is the
size the network transfer would deliver. -/
def download_recording_file (cfg : Config) (fs : Fs) (url host_folder file_name : String)
    (file_size : Nat) (topic : String) (actual : Nat) : DRFOut :=
  let fname := sanitizeName file_name
  if file_size < cfg.minFileSize * 1024 * 1024 then
    ⟨some false, fs, [], fname, ""⟩
  else
    let fname1 := resolveFileName cfg fs host_folder fname topic
    let path := create_path cfg host_folder fname1 topic fname1
    match fsLookup fs path with
    | some sz =>
      if sizeDist sz file_size ≤ cfg.tolerance then
        ⟨some false, fs, [], fname1, path⟩
      else
        dlStep cfg (fsErase fs path) [FsEvent.removed path] fname1 path url file_size actual
    | none => dlStep cfg fs [] fname1 path url file_size actual

/-! ### Meetings, recording files, and the download loop (lines 224-265) -/

/-- A recording file as returned by the API (data model §3).  Optional
fields model dictionary keys that may be absent. -/
structure RecFile where
  id : String
  fileType : String
  fileExt : Option String
  fileName : Option String
  fileSize : Option Nat
  recordingStart : String
  recordingType : Option String
  downloadUrl : String
deriving DecidableEq

/-- A fetched meeting record. -/
structure Meeting where
  topic : String
  recordingFiles : List RecFile
  participantAudioFiles : List RecFile
deriving DecidableEq

/-- Line 242: `(file_extension or splitext(file_name)[1]).lower()`.  A record
with neither field would raise a `KeyError` in the script; the data model
guarantees one of them, and the embedding totalises that impossible case
with `""`. -/
def extOf (f : RecFile) : String :=
  toLowerStr (match f.fileExt with
    | some e => if e = "" then (splitext (f.fileName.getD "")).2 else e
    | none => (splitext (f.fileName.getD "")).2)

/-- Lines 244-255: the `(topic, file_name)` pair handed to
`download_recording_file`, in topic-name mode or structured mode. -/
def namePair (cfg : Config) (m : Meeting) (f : RecFile) : String × String :=
  let ext := extOf f
  if cfg.useTopicName then
    (m.topic, m.topic ++ "." ++ ext)
  else
    let topic := slugify m.topic
    let recordingName := slugify (topic ++ "__" ++ f.recordingStart)
    let fileNameSuffix :=
      match f.fileName with
      | some fn => (splitext fn).1 ++ "__"
      | none => ""
    let recordingTypeSuffix :=
      match f.recordingType with
      | some rt => rt ++ "__"
      | none => ""
    (topic,
     slugify (recordingName ++ "__" ++ recordingTypeSuffix ++ fileNameSuffix ++ lastChars 8 f.id)
       ++ "." ++ ext)

/-- Line 238: pass the type filter (`RECORDING_FILE_TYPES` empty, or the
file type listed). -/
def typePassesB (types : List String) (ft : String) : Bool :=
  types.isEmpty || types.contains ft

/-- Lines 228-229: pass the topic filter (`TOPICS` empty, or the literal
topic listed, or its slug listed). -/
def topicPassesB (topics : List String) (t : String) : Bool :=
  topics.isEmpty || topics.contains t || topics.contains (slugify t)

/-- Running counters of `download_recordings_from_meetings`, plus the
filesystem and the accumulated event trace. -/
structure RunState where
  fileCount : Nat
  totalSize : Nat
  skippedCount : Nat
  fs : Fs
  events : List FsEvent
deriving DecidableEq

/-- One pass of the inner `for recording_file in ...` loop body
(lines 235-263).  `none` means the run aborted (a transfer size mismatch
propagated).  `oracle url` is the size the network would actually deliver
for `url`. -/
def stepFile (cfg : Config) (oracle : String → Nat) (host : String) (m : Meeting)
    (st : RunState) (f : RecFile) : Option RunState :=
  match f.fileSize with
  | none => some st
  | some fsize =>
    if typePassesB cfg.fileTypes f.fileType then
      let tp := namePair cfg m f
      let r := download_recording_file cfg st.fs f.downloadUrl host tp.2 fsize tp.1
        (oracle f.downloadUrl)
      match r.ret with
      | none => none
      | some true =>
        some ⟨st.fileCount + 1, st.totalSize + fsize, st.skippedCount, r.fs, st.events ++ r.events⟩
      | some false =>
        some ⟨st.fileCount, st.totalSize, st.skippedCount + 1, r.fs, st.events ++ r.events⟩
    else some st

/-- Lines 231-234: the files of one meeting, participant audio included only
when configured. -/
def filesOf (cfg : Config) (m : Meeting) : List RecFile :=
  m.recordingFiles ++ (if cfg.includeParticipantAudio then m.participantAudioFiles else [])

/-- One pass of the outer `for meeting in meetings` loop body
(lines 227-263): topic filter, then every file of the meeting. -/
def stepMeeting (cfg : Config) (oracle : String → Nat) (host : String)
    (st : RunState) (m : Meeting) : Option RunState :=
  if topicPassesB cfg.topics m.topic then
    (filesOf cfg m).foldlM (stepFile cfg oracle host m) st
  else some st

/-- `download_recordings_from_meetings(meetings, host_folder)`
(lines 224-265), started on filesystem `fs0`. -/
def download_recordings_from_meetings (cfg : Config) (oracle : String → Nat)
    (meetings : List Meeting) (host_folder : String) (fs0 : Fs) : Option RunState :=
  meetings.foldlM (stepMeeting cfg oracle host_folder) ⟨0, 0, 0, fs0, []⟩

/-- The number of recording files that reach `download_recording_file` at
all: files of topic-passing meetings that carry a `file_size` and pass the
type filter.  This is the claim-side counter that C10 compares the run's
`file_count + skipped_count` against. -/
def countedFiles (cfg : Config) (meetings : List Meeting) : Nat :=
  ((meetings.filter (fun m => topicPassesB cfg.topics m.topic)).map (fun m =>
    ((filesOf cfg m).filter
      (fun f => f.fileSize.isSome && typePassesB cfg.fileTypes f.fileType)).length)).sum

/-! ### `get_meetings` (lines 200-222) -/

/-- The report entry appended for a "still processing" (3301) meeting,
line 214. -/
def stillProcessingEntry (topic : String) : String :=
  "Meeting: \x27" ++ topic ++ "\x27 (Still Processing)"

/-- The report entry appended for a "not found" (404) meeting, line 217. -/
def notFoundEntry (topic : String) : String :=
  "Meeting: \x27" ++ topic ++ "\x27 (Not Found / 404)"

/-- `get_meetings(meeting_data)` (lines 200-222).  `fetch uuid` is the
API call `client.get(url)` for that meeting: either the meeting record or
the text of the raised exception.  The result is the fetched meeting list
together with the entries appended to `SKIPPED_MEETINGS`; an unrecognised
error re-raises, aborting the whole run (`Except.error`). -/
def get_meetings (fetch : String → Except String Meeting) :
    List (String × String) → Except String (List Meeting × List String)
  | [] => Except.ok ([], [])
  | (uuid, topic) :: rest =>
    match fetch uuid with
    | Except.ok m =>
      match get_meetings fetch rest with
      | Except.ok (ms, sk) => Except.ok (m :: ms, sk)
      | Except.error e2 => Except.error e2
    | Except.error e =>
      if containsSub e "3301" then
        match get_meetings fetch rest with
        | Except.ok (ms, sk) => Except.ok (ms, stillProcessingEntry topic :: sk)
        | Except.error e2 => Except.error e2
      else if containsSub e "404" then
        match get_meetings fetch rest with
        | Except.ok (ms, sk) => Except.ok (ms, notFoundEntry topic :: sk)
        | Except.error e2 => Except.error e2
      else Except.error e

/-! ### Date windows of `get_meeting_uuids` (lines 173-198) -/

/-- The `(local_start_date, local_end_date)` windows generated by the
`while local_start_date <= end_date` loop of `get_meeting_uuids`
(lines 176-196): dates are days since an epoch, `delta` is 29 days, and the
next window starts the day after the previous one ended. -/
def meetingWindows (s e : Int) : List (Int × Int) :=
  if s ≤ e then (s, min (s + 29) e) :: meetingWindows (min (s + 29) e + 1) e else []
termination_by (e + 1 - s).toNat
decreasing_by omega

/-! ### The Friday end-date adjustment in `main` (lines 67-69) -/

/-- Lines 67-69 of `main`.  Dates are days since an epoch chosen so that day
0 is a Monday; `d.emod 7` is then Python's `date.weekday()` (Monday = 0,
Friday = 4).  When `CHECK_FRIDAY_WEEKENDS` is set and the start date is a
Friday, the script adds **two** days to the end date. -/
def checkFridayAdjust (checkFridayWeekends : Bool) (from_date to_date : Int) : Int :=
  if checkFridayWeekends && (from_date.emod 7 == 4) then to_date + 2 else to_date

/-! ### The silence-log parser of `process_videos` (lines 361-383)

The numeric values in the log are parsed by Python's `float`; every value
`ffmpeg` emits here is a short decimal literal, which we model exactly as
`mantissa / 10 ^ scale` over the integers (`decValQ` gives its value in
`ℚ`).  For such decimals the order comparisons agree with the
floating-point ones the script performs. -/

/-- An exact decimal number `mantissa / 10 ^ scale`. -/
structure Dec where
  mantissa : Int
  scale : Nat
deriving DecidableEq

/-- The rational value of a `Dec`. -/
def decValQ (d : Dec) : ℚ :=
  (d.mantissa : ℚ) / (10 : ℚ) ^ d.scale

/-- Order on parsed decimals by cross-multiplication (the comparison
`end > start` of line 371 is `decLtB start end`). -/
def decLtB (a b : Dec) : Bool :=
  a.mantissa * (10 : Int) ^ b.scale < b.mantissa * (10 : Int) ^ a.scale

/-- Python `float(...)` restricted to the plain decimal literals that occur
in silence-detection logs: an optional minus sign, digits, and an optional
fractional part.  `none` models the `ValueError` that would abort the run. -/
def parseDec (cs0 : List Char) : Option Dec :=
  let sgn : Int := if cs0.head? = some '-' then -1 else 1
  let cs := if cs0.head? = some '-' then cs0.tail else cs0
  let ip := cs.takeWhile Char.isDigit
  let rest := cs.dropWhile Char.isDigit
  match rest with
  | [] => if ip.isEmpty then none else some ⟨sgn * (decVal ip : Nat), 0⟩
  | '.' :: fp =>
    if fp.all Char.isDigit ∧ ¬(ip.isEmpty ∧ fp.isEmpty) then
      some ⟨sgn * (decVal (ip ++ fp) : Nat), fp.length⟩
    else none
  | _ => none

/-- One cut segment of the emitted cut-list: the JSON object
`{"start": ..., "end": ..., "name": ""}` (line 372); the field `stop`
models the JSON key `"end"`. -/
structure CutSeg where
  start : Dec
  stop : Dec
  name : String
deriving DecidableEq

/-- One iteration of the `for line in f` loop (lines 365-374), on the state
`(start, end, cut_segments)`.  `none` models the `IndexError`/`ValueError`
aborts on lines the script cannot parse. -/
def procLine (st : Option Dec × Option Dec × List CutSeg) (line : String) :
    Option (Option Dec × Option Dec × List CutSeg) :=
  let sOpt := st.1
  let eOpt := st.2.1
  let segs := st.2.2
  if containsSub line "[silencedetect @" then
    if containsSub line "silence_start" then
      match ((splitCh ':' line.data)[1]?) with
      | none => none
      | some piece =>
        match parseDec (stripWs piece) with
        | none => none
        | some v => some (some v, eOpt, segs)
    else if containsSub line "silence_end" then
      match ((splitCh ':' line.data)[1]?) with
      | none => none
      | some piece =>
        match parseDec (stripWs ((splitCh '|' piece).headD [])) with
        | none => none
        | some v =>
          match sOpt with
          | some sv =>
            if decLtB sv v then some (none, none, segs ++ [⟨sv, v, ""⟩])
            else some (sOpt, some v, segs)
          | none => some (sOpt, some v, segs)
    else some st
  else some st

/-- The whole parsing pass over a silence-detection log (lines 361-374):
the cut segments collected from the given lines, or `none` when a line
aborts the run. -/
def parseSilenceLog (lines : List String) : Option (List CutSeg) :=
  (lines.foldlM procLine ((none : Option Dec), (none : Option Dec), ([] : List CutSeg))).map
    (fun st => st.2.2)

/-- The cut-list document written for one video (lines 376-380):
`{"version": 1, "mediaFileName": filename, "cutSegments": ...}`. -/
structure LlcDoc where
  version : Nat
  mediaFileName : String
  cutSegments : List CutSeg
deriving DecidableEq

/-- Build the cut-list document for one video from its silence log. -/
def makeLlcDoc (filename : String) (lines : List String) : Option LlcDoc :=
  (parseSilenceLog lines).map (fun segs => ⟨1, filename, segs⟩)

/-! ### Derived definitions used by the claim statements -/

/-- The file name `download_recording_file` resolves for a call with raw
name `file_name` on filesystem `fs` (sanitisation plus collision probing),
assuming the minimum-size check passes. -/
def resolvedName (cfg : Config) (fs : Fs) (host file_name topic : String) : String :=
  resolveFileName cfg fs host (sanitizeName file_name) topic

/-- The destination path `download_recording_file` resolves (line 291 or
line 281), assuming the minimum-size check passes. -/
def resolvedPath (cfg : Config) (fs : Fs) (host file_name topic : String) : String :=
  create_path cfg host (resolvedName cfg fs host file_name topic) topic
    (resolvedName cfg fs host file_name topic)

/-- Event predicate: a transfer event only for a file at least as large as
the configured minimum size (non-transfer events satisfy it trivially). -/
def transferMinOk (cfg : Config) (ev : FsEvent) : Prop :=
  match ev with
  | FsEvent.transfer _ _ sz => cfg.minFileSize * 1024 * 1024 ≤ sz
  | _ => True

/-- Configuration used by the concrete scenarios: topic-name mode, no
grouping, no filters, zero minimum size, zero tolerance. -/
def scenCfg : Config := ⟨0, 0, false, false, true, false, [], []⟩

/-- Configuration for the C1 counterexample: 1 MB minimum file size, zero
tolerance, grouping by topic enabled, topic-name mode. -/
def c1Cfg : Config := ⟨1, 0, true, false, true, false, [], []⟩

/-- Filesystem for the C1 counterexample: the initial destination
`h/t/b.mp4` and the suffixed destination `h/t/b_1.mp4` both hold files whose
sizes disagree with the expected size by more than the tolerance. -/
def c1Fs : Fs := [("h/t/b.mp4", 999), ("h/t/b_1.mp4", 500)]

/-- The silence-detection log of the C9 scenario. -/
def c9Lines : List String :=
  ["[silencedetect @ 0x1] silence_start: 1.0",
   "[silencedetect @ 0x1] silence_end: 4.5 | silence_duration: 3.5"]

/-! ## Theorems

First, generic lemmas about the helpers; then one theorem (plus witness or
counterexample) per specification claim C1-C10. -/

theorem decDigit_val (d : Nat) (h : d < 10) : (decDigit d).toNat - 48 = d := by
  interval_cases d <;> decide

theorem decVal_append_digit (l : List Char) (c : Char) :
    decVal (l ++ [c]) = decVal l * 10 + (c.toNat - 48) := by
  simp [decVal, List.foldl_append]

theorem natStrAux_val : ∀ fuel n, n ≤ fuel → decVal (natStrAux fuel n) = n := by
  intro fuel
  induction fuel with
  | zero =>
    intro n hn
    interval_cases n
    decide
  | succ fuel ih =>
    intro n hn
    by_cases h10 : n < 10
    · simp only [natStrAux, if_pos h10, decVal, List.foldl]
      have := decDigit_val n h10
      simp [decVal] at this ⊢
      omega
    · have hdiv : n / 10 ≤ fuel := by omega
      have hmod : n % 10 < 10 := Nat.mod_lt _ (by omega)
      simp only [natStrAux, if_neg h10]
      rw [decVal_append_digit, ih _ hdiv, decDigit_val _ hmod]
      omega

theorem natStr_injective : Function.Injective natStr := by
  intro m n h
  have hdata : natStrAux m m = natStrAux n n := congrArg String.data h
  have := natStrAux_val m m le_rfl
  rw [hdata, natStrAux_val n n le_rfl] at this
  exact this.symm

theorem fsLookup_isSome_mem (fs : Fs) (p : String) :
    (fsLookup fs p).isSome = true → p ∈ fsKeys fs := by
  induction fs with
  | nil => simp [fsLookup]
  | cons e rest ih =>
    obtain ⟨q, n⟩ := e
    simp only [fsLookup, fsKeys, List.map_cons, List.mem_cons]
    by_cases hq : q = p
    · intro _; left; exact hq.symm
    · rw [if_neg hq]
      intro h
      right
      exact ih h

theorem probePath_inj (host base ext : String) : Function.Injective (probePath host base ext) := by
  intro i j h
  apply natStr_injective
  have hdata := congrArg String.data h
  simp only [probePath, pathJoin, String.data_append] at hdata
  have h1 := List.append_cancel_left hdata
  have h2 := List.append_cancel_right h1
  have h3 := List.append_cancel_left h2
  exact String.ext h3

theorem probe_exists_free (fs : Fs) (host base ext : String) :
    ∃ j, 1 ≤ j ∧ j ≤ fs.length + 1 ∧ fsLookup fs (probePath host base ext j) = none := by
  by_contra hc
  push_neg at hc
  have hmem : ∀ k < fs.length + 1, probePath host base ext (k + 1) ∈ fsKeys fs := by
    intro k hk
    apply fsLookup_isSome_mem
    have hne := hc (k + 1) (by omega) (by omega)
    cases hval : fsLookup fs (probePath host base ext (k + 1)) with
    | none => exact absurd hval hne
    | some v => simp
  have hinj : Function.Injective (fun k : Nat => probePath host base ext (k + 1)) := by
    intro a b hab
    have := probePath_inj host base ext hab
    omega
  have hnodup : ((List.range (fs.length + 1)).map
      (fun k => probePath host base ext (k + 1))).Nodup :=
    (List.nodup_range _).map hinj
  have hsub : ((List.range (fs.length + 1)).map
      (fun k => probePath host base ext (k + 1))) ⊆ fsKeys fs := by
    intro x hx
    simp only [List.mem_map, List.mem_range] at hx
    obtain ⟨k, hk, rfl⟩ := hx
    exact hmem k hk
  have hlen := (List.subperm_of_subset hnodup hsub).length_le
  simp [fsKeys] at hlen

theorem probeIndexAux_ge (fs : Fs) (host base ext : String) :
    ∀ fuel i, i ≤ probeIndexAux fs host base ext fuel i := by
  intro fuel
  induction fuel with
  | zero => intro i; simp [probeIndexAux]
  | succ fuel ih =>
    intro i
    simp only [probeIndexAux]
    split
    · exact le_trans (by omega) (ih (i + 1))
    · exact le_rfl

theorem probeIndexAux_spec (fs : Fs) (host base ext : String) :
    ∀ fuel i, (∃ j, i ≤ j ∧ j < i + fuel ∧ fsLookup fs (probePath host base ext j) = none) →
      fsLookup fs (probePath host base ext (probeIndexAux fs host base ext fuel i)) = none ∧
      ∀ k, i ≤ k → k < probeIndexAux fs host base ext fuel i →
        (fsLookup fs (probePath host base ext k)).isSome = true := by
  intro fuel
  induction fuel with
  | zero =>
    rintro i ⟨j, hj1, hj2, _⟩
    omega
  | succ fuel ih =>
    rintro i ⟨j, hj1, hj2, hjfree⟩
    simp only [probeIndexAux]
    by_cases hocc : (fsLookup fs (probePath host base ext i)).isSome = true
    · rw [if_pos hocc]
      have hji : j ≠ i := by
        intro h
        rw [h] at hjfree
        rw [hjfree] at hocc
        simp at hocc
      obtain ⟨h1, h2⟩ := ih (i + 1) ⟨j, by omega, by omega, hjfree⟩
      refine ⟨h1, ?_⟩
      intro k hk1 hk2
      by_cases hkeq : k = i
      · rw [hkeq]; exact hocc
      · exact h2 k (by omega) hk2
    · rw [if_neg hocc]
      refine ⟨?_, by intro k h1 h2; omega⟩
      cases hval : fsLookup fs (probePath host base ext i) with
      | none => rfl
      | some v => rw [hval] at hocc; simp at hocc

theorem probeIndex_spec (fs : Fs) (host base ext : String) :
    fsLookup fs (probePath host base ext (probeIndex fs host base ext)) = none ∧
    (∀ k, 1 ≤ k → k < probeIndex fs host base ext →
      (fsLookup fs (probePath host base ext k)).isSome = true) ∧
    1 ≤ probeIndex fs host base ext := by
  obtain ⟨j, hj1, hj2, hjf⟩ := probe_exists_free fs host base ext
  have h := probeIndexAux_spec fs host base ext (fs.length + 1) 1 ⟨j, hj1, by omega, hjf⟩
  exact ⟨h.1, h.2, probeIndexAux_ge fs host base ext _ 1⟩

theorem fsLookup_erase_self (fs : Fs) (p : String) : fsLookup (fsErase fs p) p = none := by
  induction fs with
  | nil => rfl
  | cons e rest ih =>
    obtain ⟨q, n⟩ := e
    by_cases hq : q = p
    · simpa [fsErase, fsLookup, hq] using ih
    · simpa [fsErase, fsLookup, hq] using ih

theorem fsLookup_erase_ne (fs : Fs) (p q : String) (h : p ≠ q) :
    fsLookup (fsErase fs p) q = fsLookup fs q := by
  induction fs with
  | nil => rfl
  | cons e rest ih =>
    obtain ⟨r, n⟩ := e
    simp only [fsErase, List.filter_cons] at ih ⊢
    by_cases hr : r = p
    · have hrq : ¬ r = q := by rw [hr]; exact h
      simp [fsLookup, hr, hrq, h, ih]
    · by_cases hq : r = q
      · simp [fsLookup, hr, hq, Ne.symm h]
      · simp [fsLookup, hr, hq, ih]

theorem fsLookup_insert_self (fs : Fs) (p : String) (n : Nat) :
    fsLookup (fsInsert fs p n) p = some n := by
  simp [fsInsert, fsLookup]

theorem fsLookup_insert_ne (fs : Fs) (p q : String) (n : Nat) (h : p ≠ q) :
    fsLookup (fsInsert fs p n) q = fsLookup fs q := by
  simp only [fsInsert, fsLookup, if_neg h]
  exact fsLookup_erase_ne fs p q h

theorem tmp_path_ne (s : String) : s ≠ s ++ ".tmp" := by
  intro h
  have := congrArg (fun t : String => t.data.length) h
  simp [String.data_append] at this

/-- C3: if the computed destination file name already exists, the downloader
probes `name_1`, `name_2`, ... and uses the first unused suffixed name as
the new destination.  The theorem states: (1) the resolved name is
`base_i ext` where `i` is the probe index; (2) the probed path for `i` is
unused while (3) every smaller probe index `≥ 1` is used (so `i` is the
first unused one — the probe checks names directly under the host folder,
which is the destination folder whenever grouping is disabled, as conjunct
(4) records by showing the resolved destination is then that probe path and
carries no file); and (5) the concrete scenario: two recording files with
the topic-mode name `"Standup.mp4"` — the second resolves to
`"Standup_1.mp4"`. -/
theorem claim_C3 (cfg : Config) (fs : Fs) (host file_name topic base ext : String)
    (hsplit : splitext (sanitizeName file_name) = (base, ext))
    (hexists : (fsLookup fs (create_path cfg host (sanitizeName file_name) topic
      (sanitizeName file_name))).isSome = true) :
    resolvedName cfg fs host file_name topic
        = base ++ "_" ++ natStr (probeIndex fs host base ext) ++ ext
      ∧ fsLookup fs (probePath host base ext (probeIndex fs host base ext)) = none
      ∧ (∀ k, 1 ≤ k → k < probeIndex fs host base ext →
          (fsLookup fs (probePath host base ext k)).isSome = true)
      ∧ (cfg.groupByTopic = false → cfg.groupByRecording = false →
          resolvedPath cfg fs host file_name topic
              = probePath host base ext (probeIndex fs host base ext)
            ∧ fsLookup fs (resolvedPath cfg fs host file_name topic) = none)
      ∧ (download_recording_file scenCfg
          (download_recording_file scenCfg [] "u" "h" "Standup.mp4" 100 "Standup" 100).fs
          "u" "h" "Standup.mp4" 100 "Standup" 100).finalName = "Standup_1.mp4" := by
  have hname : resolvedName cfg fs host file_name topic
      = base ++ "_" ++ natStr (probeIndex fs host base ext) ++ ext := by
    simp only [resolvedName, resolveFileName, hexists, if_pos, hsplit]
  obtain ⟨hfree, hmin, hge⟩ := probeIndex_spec fs host base ext
  refine ⟨hname, hfree, hmin, ?_, by decide⟩
  intro hgt hgr
  have hpath : resolvedPath cfg fs host file_name topic
      = probePath host base ext (probeIndex fs host base ext) := by
    simp only [resolvedPath, hname, create_path, hgt, hgr, Bool.false_eq_true, if_false,
      probePath, pathJoin]
  exact ⟨hpath, by rw [hpath]; exact hfree⟩

/-- Witness for C3: a file `h/Standup.mp4` exists, and the downloader
resolves the suffixed name for a second `Standup.mp4`. -/
theorem claim_C3_witness :
    resolvedName scenCfg [("h/Standup.mp4", 100)] "h" "Standup.mp4" "Standup"
      = "Standup" ++ "_" ++ natStr (probeIndex [("h/Standup.mp4", 100)] "h" "Standup" ".mp4")
        ++ ".mp4" :=
  (claim_C3 scenCfg [("h/Standup.mp4", 100)] "h" "Standup.mp4" "Standup" "Standup" ".mp4"
    (by decide) (by decide)).1

/-- C1 (amended): provided the file's size meets the configured minimum
(undersized files are skipped at the size check, before any existence
handling), then for a file whose resolved destination path already carries a
file of size `sz`: within tolerance the call returns `False` (the outcome
counted as skipped by lines 259-263) with no filesystem change and no
events — in particular no network transfer; beyond tolerance the existing
file is deleted (`removed` event first) and a transfer is attempted
(`transfer` event next). -/
theorem claim_C1_amended (cfg : Config) (fs : Fs) (url host file_name topic : String)
    (file_size actual sz : Nat)
    (hmin : cfg.minFileSize * 1024 * 1024 ≤ file_size)
    (hex : fsLookup fs (resolvedPath cfg fs host file_name topic) = some sz) :
    (sizeDist sz file_size ≤ cfg.tolerance →
        (download_recording_file cfg fs url host file_name file_size topic actual).ret = some false
      ∧ (download_recording_file cfg fs url host file_name file_size topic actual).fs = fs
      ∧ (download_recording_file cfg fs url host file_name file_size topic actual).events = [])
    ∧ (cfg.tolerance < sizeDist sz file_size →
        ∃ rest, (download_recording_file cfg fs url host file_name file_size topic actual).events
            = FsEvent.removed (resolvedPath cfg fs host file_name topic)
              :: FsEvent.transfer url (resolvedPath cfg fs host file_name topic ++ ".tmp")
                  file_size
              :: rest) := by
  have hns : ¬ (file_size < cfg.minFileSize * 1024 * 1024) := by omega
  simp only [resolvedPath, resolvedName] at hex
  constructor
  · intro htol
    simp [download_recording_file, hns, hex, htol]
  · intro htol
    have hnt : ¬ (sizeDist sz file_size ≤ cfg.tolerance) := by omega
    refine ⟨if cfg.tolerance < sizeDist actual file_size then []
      else [FsEvent.renamed (resolvedPath cfg fs host file_name topic ++ ".tmp")
        (resolvedPath cfg fs host file_name topic)], ?_⟩
    simp only [resolvedPath, resolvedName]
    by_cases hm : cfg.tolerance < sizeDist actual file_size
    · simp [download_recording_file, hns, hex, hnt, dlStep, hm]
    · simp [download_recording_file, hns, hex, hnt, dlStep, hm]

/-- C1 as stated is false: a file below the configured minimum size whose
resolved destination already carries a size-mismatched (beyond-tolerance)
file is simply skipped at the size check — nothing is deleted and no
transfer is attempted, where the claim demands a deletion and a transfer.
Input: 1 MB minimum, zero tolerance, grouping by topic, expected size 10,
existing file of size 500 at the resolved destination `h/t/b_1.mp4`. -/
theorem claim_C1_counterexample :
    fsLookup c1Fs (resolvedPath c1Cfg c1Fs "h" "b.mp4" "t") = some 500
      ∧ c1Cfg.tolerance < sizeDist 500 10
      ∧ (download_recording_file c1Cfg c1Fs "u" "h" "b.mp4" 10 "t" 10).events = []
      ∧ (download_recording_file c1Cfg c1Fs "u" "h" "b.mp4" 10 "t" 10).fs = c1Fs
      ∧ (download_recording_file c1Cfg c1Fs "u" "h" "b.mp4" 10 "t" 10).ret = some false := by
  decide

/-- Witness for the amended C1: an adequately sized file whose resolved
destination `h/t/b_1.mp4` holds a file of matching size is skipped. -/
theorem claim_C1_witness :
    (download_recording_file ⟨0, 5, true, false, true, false, [], []⟩
      [("h/t/b.mp4", 999), ("h/t/b_1.mp4", 100)] "u" "h" "b.mp4" 100 "t" 100).ret = some false :=
  ((claim_C1_amended ⟨0, 5, true, false, true, false, [], []⟩
    [("h/t/b.mp4", 999), ("h/t/b_1.mp4", 100)] "u" "h" "b.mp4" "t" 100 100 100
    (by decide) (by decide)).1 (by decide)).1

theorem dlStep_cases (cfg : Config) (fs : Fs) (evs : List FsEvent) (fname path url : String)
    (fsize actual : Nat) :
    (cfg.tolerance < sizeDist actual fsize ∧
      dlStep cfg fs evs fname path url fsize actual
        = ⟨none, fsInsert fs (path ++ ".tmp") actual,
            evs ++ [FsEvent.transfer url (path ++ ".tmp") fsize], fname, path⟩)
    ∨ (sizeDist actual fsize ≤ cfg.tolerance ∧
      dlStep cfg fs evs fname path url fsize actual
        = ⟨some true,
            fsInsert (fsErase (fsInsert fs (path ++ ".tmp") actual) (path ++ ".tmp")) path actual,
            evs ++ [FsEvent.transfer url (path ++ ".tmp") fsize]
              ++ [FsEvent.renamed (path ++ ".tmp") path],
            fname, path⟩) := by
  by_cases hm : cfg.tolerance < sizeDist actual fsize
  · exact Or.inl ⟨hm, by simp [dlStep, hm]⟩
  · exact Or.inr ⟨by omega, by simp [dlStep, hm]⟩

theorem drf_cases (cfg : Config) (fs : Fs) (url host fname topic : String) (fsize actual : Nat) :
    (fsize < cfg.minFileSize * 1024 * 1024 ∧
      download_recording_file cfg fs url host fname fsize topic actual
        = ⟨some false, fs, [], sanitizeName fname, ""⟩)
    ∨ (cfg.minFileSize * 1024 * 1024 ≤ fsize ∧ ∃ sz,
        fsLookup fs (resolvedPath cfg fs host fname topic) = some sz
        ∧ sizeDist sz fsize ≤ cfg.tolerance
        ∧ download_recording_file cfg fs url host fname fsize topic actual
            = ⟨some false, fs, [], resolvedName cfg fs host fname topic,
                resolvedPath cfg fs host fname topic⟩)
    ∨ (cfg.minFileSize * 1024 * 1024 ≤ fsize ∧ ∃ sz,
        fsLookup fs (resolvedPath cfg fs host fname topic) = some sz
        ∧ cfg.tolerance < sizeDist sz fsize
        ∧ download_recording_file cfg fs url host fname fsize topic actual
            = dlStep cfg (fsErase fs (resolvedPath cfg fs host fname topic))
                [FsEvent.removed (resolvedPath cfg fs host fname topic)]
                (resolvedName cfg fs host fname topic) (resolvedPath cfg fs host fname topic)
                url fsize actual)
    ∨ (cfg.minFileSize * 1024 * 1024 ≤ fsize
        ∧ fsLookup fs (resolvedPath cfg fs host fname topic) = none
        ∧ download_recording_file cfg fs url host fname fsize topic actual
            = dlStep cfg fs [] (resolvedName cfg fs host fname topic)
                (resolvedPath cfg fs host fname topic) url fsize actual) := by
  by_cases hs : fsize < cfg.minFileSize * 1024 * 1024
  · exact Or.inl ⟨hs, by simp [download_recording_file, hs]⟩
  · have hmin : cfg.minFileSize * 1024 * 1024 ≤ fsize := by omega
    cases hl : fsLookup fs (resolvedPath cfg fs host fname topic) with
    | some sz =>
      by_cases ht : sizeDist sz fsize ≤ cfg.tolerance
      · refine Or.inr (Or.inl ⟨hmin, sz, rfl, ht, ?_⟩)
        have hl2 := hl
        simp only [resolvedPath, resolvedName] at hl2
        simp [download_recording_file, hs, hl2, ht, resolvedName, resolvedPath]
      · refine Or.inr (Or.inr (Or.inl ⟨hmin, sz, rfl, by omega, ?_⟩))
        have hl2 := hl
        simp only [resolvedPath, resolvedName] at hl2
        simp [download_recording_file, hs, hl2, ht, resolvedName, resolvedPath]
    | none =>
      refine Or.inr (Or.inr (Or.inr ⟨hmin, rfl, ?_⟩))
      have hl2 := hl
      simp only [resolvedPath, resolvedName] at hl2
      simp [download_recording_file, hs, hl2, resolvedName, resolvedPath]

/-- C5: a successful download is streamed to the sibling `<dest>.tmp` and
only then renamed onto the destination: on success (`ret = some true`) the
transferred size was verified within tolerance, the destination holds
exactly the transferred bytes, no `.tmp` file remains, and the event trace
ends with the transfer into `<dest>.tmp` followed by the rename onto the
destination; when the size verification fails and the call aborts
(`ret = none`), no file is left at the final destination path. -/
theorem claim_C5 (cfg : Config) (fs : Fs) (url host file_name topic : String)
    (file_size actual : Nat) :
    ((download_recording_file cfg fs url host file_name file_size topic actual).ret = some true →
        sizeDist actual file_size ≤ cfg.tolerance
      ∧ fsLookup (download_recording_file cfg fs url host file_name file_size topic actual).fs
          (download_recording_file cfg fs url host file_name file_size topic actual).finalPath
          = some actual
      ∧ fsLookup (download_recording_file cfg fs url host file_name file_size topic actual).fs
          ((download_recording_file cfg fs url host file_name file_size topic actual).finalPath
            ++ ".tmp") = none
      ∧ ∃ pre, (download_recording_file cfg fs url host file_name file_size topic actual).events
          = pre ++ [FsEvent.transfer url
              ((download_recording_file cfg fs url host file_name file_size topic actual).finalPath
                ++ ".tmp") file_size,
             FsEvent.renamed
              ((download_recording_file cfg fs url host file_name file_size topic actual).finalPath
                ++ ".tmp")
              (download_recording_file cfg fs url host file_name file_size topic actual).finalPath])
    ∧ ((download_recording_file cfg fs url host file_name file_size topic actual).ret = none →
        fsLookup (download_recording_file cfg fs url host file_name file_size topic actual).fs
          (download_recording_file cfg fs url host file_name file_size topic actual).finalPath
          = none) := by
  rcases drf_cases cfg fs url host file_name topic file_size actual with
    ⟨hs, heq⟩ | ⟨hmin, sz, hl, ht, heq⟩ | ⟨hmin, sz, hl, ht, heq⟩ | ⟨hmin, hl, heq⟩
  · rw [heq]
    exact ⟨by intro h; simp at h, by intro h; simp at h⟩
  · rw [heq]
    exact ⟨by intro h; simp at h, by intro h; simp at h⟩
  · rw [heq]
    rcases dlStep_cases cfg (fsErase fs (resolvedPath cfg fs host file_name topic))
      [FsEvent.removed (resolvedPath cfg fs host file_name topic)]
      (resolvedName cfg fs host file_name topic) (resolvedPath cfg fs host file_name topic)
      url file_size actual with ⟨hm, heq2⟩ | ⟨hm, heq2⟩
    · rw [heq2]
      refine ⟨by intro h; simp at h, fun _ => ?_⟩
      rw [fsLookup_insert_ne _ _ _ _ (Ne.symm (tmp_path_ne _))]
      exact fsLookup_erase_self _ _
    · rw [heq2]
      refine ⟨fun _ => ⟨hm, fsLookup_insert_self _ _ _, ?_,
          ⟨[FsEvent.removed (resolvedPath cfg fs host file_name topic)], by simp⟩⟩,
        by intro h; simp at h⟩
      rw [fsLookup_insert_ne _ _ _ _ (tmp_path_ne _)]
      exact fsLookup_erase_self _ _
  · rw [heq]
    rcases dlStep_cases cfg fs [] (resolvedName cfg fs host file_name topic)
      (resolvedPath cfg fs host file_name topic) url file_size actual with
      ⟨hm, heq2⟩ | ⟨hm, heq2⟩
    · rw [heq2]
      refine ⟨by intro h; simp at h, fun _ => ?_⟩
      rw [fsLookup_insert_ne _ _ _ _ (Ne.symm (tmp_path_ne _))]
      exact hl
    · rw [heq2]
      refine ⟨fun _ => ⟨hm, fsLookup_insert_self _ _ _, ?_, ⟨[], by simp⟩⟩,
        by intro h; simp at h⟩
      rw [fsLookup_insert_ne _ _ _ _ (tmp_path_ne _)]
      exact fsLookup_erase_self _ _

/-- Witness for C5: a concrete successful download (`h/a.mp4`, 100 bytes
expected, 100 transferred) leaves the file at the destination and no
`.tmp` behind. -/
theorem claim_C5_witness :
    sizeDist 100 100 ≤ scenCfg.tolerance
      ∧ fsLookup (download_recording_file scenCfg [] "u" "h" "a.mp4" 100 "t" 100).fs
          (download_recording_file scenCfg [] "u" "h" "a.mp4" 100 "t" 100).finalPath = some 100
      ∧ fsLookup (download_recording_file scenCfg [] "u" "h" "a.mp4" 100 "t" 100).fs
          ((download_recording_file scenCfg [] "u" "h" "a.mp4" 100 "t" 100).finalPath ++ ".tmp")
          = none :=
  ⟨((claim_C5 scenCfg [] "u" "h" "a.mp4" "t" 100 100).1 (by decide)).1,
   ((claim_C5 scenCfg [] "u" "h" "a.mp4" "t" 100 100).1 (by decide)).2.1,
   ((claim_C5 scenCfg [] "u" "h" "a.mp4" "t" 100 100).1 (by decide)).2.2.1⟩

theorem dlStep_events (cfg : Config) (fs : Fs) (evs : List FsEvent) (fname path url : String)
    (fsize actual : Nat) :
    ∀ ev ∈ (dlStep cfg fs evs fname path url fsize actual).events,
      ev ∈ evs ∨ ev = FsEvent.transfer url (path ++ ".tmp") fsize
        ∨ ev = FsEvent.renamed (path ++ ".tmp") path := by
  intro ev hev
  rcases dlStep_cases cfg fs evs fname path url fsize actual with ⟨hm, heq⟩ | ⟨hm, heq⟩ <;>
    rw [heq] at hev <;> simp only [List.mem_append, List.mem_singleton] at hev
  · rcases hev with h | h
    · exact Or.inl h
    · exact Or.inr (Or.inl h)
  · rcases hev with (h | h) | h
    · exact Or.inl h
    · exact Or.inr (Or.inl h)
    · exact Or.inr (Or.inr h)

theorem drf_events_minOk (cfg : Config) (fs : Fs) (url host fname topic : String)
    (fsize actual : Nat) :
    ∀ ev ∈ (download_recording_file cfg fs url host fname fsize topic actual).events,
      transferMinOk cfg ev := by
  intro ev hev
  rcases drf_cases cfg fs url host fname topic fsize actual with
    ⟨hs, heq⟩ | ⟨hmin, sz, hl, ht, heq⟩ | ⟨hmin, sz, hl, ht, heq⟩ | ⟨hmin, hl, heq⟩
  · rw [heq] at hev; simp at hev
  · rw [heq] at hev; simp at hev
  · rw [heq] at hev
    rcases dlStep_events _ _ _ _ _ _ _ _ ev hev with h | h | h
    · simp only [List.mem_singleton] at h
      subst h; simp [transferMinOk]
    · subst h; simpa [transferMinOk] using hmin
    · subst h; simp [transferMinOk]
  · rw [heq] at hev
    rcases dlStep_events _ _ _ _ _ _ _ _ ev hev with h | h | h
    · simp at h
    · subst h; simpa [transferMinOk] using hmin
    · subst h; simp [transferMinOk]

theorem stepFile_cases (cfg : Config) (oracle : String → Nat) (host : String) (m : Meeting)
    (st : RunState) (f : RecFile) :
    (f.fileSize = none ∧ stepFile cfg oracle host m st f = some st)
    ∨ (∃ fsize, f.fileSize = some fsize ∧ typePassesB cfg.fileTypes f.fileType = false
        ∧ stepFile cfg oracle host m st f = some st)
    ∨ (∃ fsize, f.fileSize = some fsize ∧ typePassesB cfg.fileTypes f.fileType = true
        ∧ (download_recording_file cfg st.fs f.downloadUrl host (namePair cfg m f).2 fsize
            (namePair cfg m f).1 (oracle f.downloadUrl)).ret = none
        ∧ stepFile cfg oracle host m st f = none)
    ∨ (∃ fsize, f.fileSize = some fsize ∧ typePassesB cfg.fileTypes f.fileType = true
        ∧ (download_recording_file cfg st.fs f.downloadUrl host (namePair cfg m f).2 fsize
            (namePair cfg m f).1 (oracle f.downloadUrl)).ret = some true
        ∧ stepFile cfg oracle host m st f
            = some ⟨st.fileCount + 1, st.totalSize + fsize, st.skippedCount,
                (download_recording_file cfg st.fs f.downloadUrl host (namePair cfg m f).2 fsize
                  (namePair cfg m f).1 (oracle f.downloadUrl)).fs,
                st.events ++ (download_recording_file cfg st.fs f.downloadUrl host
                  (namePair cfg m f).2 fsize (namePair cfg m f).1 (oracle f.downloadUrl)).events⟩)
    ∨ (∃ fsize, f.fileSize = some fsize ∧ typePassesB cfg.fileTypes f.fileType = true
        ∧ (download_recording_file cfg st.fs f.downloadUrl host (namePair cfg m f).2 fsize
            (namePair cfg m f).1 (oracle f.downloadUrl)).ret = some false
        ∧ stepFile cfg oracle host m st f
            = some ⟨st.fileCount, st.totalSize, st.skippedCount + 1,
                (download_recording_file cfg st.fs f.downloadUrl host (namePair cfg m f).2 fsize
                  (namePair cfg m f).1 (oracle f.downloadUrl)).fs,
                st.events ++ (download_recording_file cfg st.fs f.downloadUrl host
                  (namePair cfg m f).2 fsize (namePair cfg m f).1 (oracle f.downloadUrl)).events⟩) := by
  cases hfs : f.fileSize with
  | none => exact Or.inl ⟨rfl, by simp [stepFile, hfs]⟩
  | some fsize =>
    by_cases htp : typePassesB cfg.fileTypes f.fileType = true
    · cases hr : (download_recording_file cfg st.fs f.downloadUrl host (namePair cfg m f).2 fsize
          (namePair cfg m f).1 (oracle f.downloadUrl)).ret with
      | none =>
        refine Or.inr (Or.inr (Or.inl ⟨fsize, rfl, htp, hr, ?_⟩))
        simp only [stepFile, hfs, htp, if_true]
        rw [hr]
      | some b =>
        cases b with
        | true =>
          refine Or.inr (Or.inr (Or.inr (Or.inl ⟨fsize, rfl, htp, hr, ?_⟩)))
          simp only [stepFile, hfs, htp, if_true]
          rw [hr]
        | false =>
          refine Or.inr (Or.inr (Or.inr (Or.inr ⟨fsize, rfl, htp, hr, ?_⟩)))
          simp only [stepFile, hfs, htp, if_true]
          rw [hr]
    · have htp2 : typePassesB cfg.fileTypes f.fileType = false := by
        cases h : typePassesB cfg.fileTypes f.fileType
        · rfl
        · exact absurd h htp
      refine Or.inr (Or.inl ⟨fsize, rfl, htp2, ?_⟩)
      simp [stepFile, hfs, htp2]

theorem stepFile_events_minOk (cfg : Config) (oracle : String → Nat) (host : String)
    (m : Meeting) (st : RunState) (f : RecFile) (st' : RunState)
    (h : stepFile cfg oracle host m st f = some st')
    (hpre : ∀ ev ∈ st.events, transferMinOk cfg ev) :
    ∀ ev ∈ st'.events, transferMinOk cfg ev := by
  rcases stepFile_cases cfg oracle host m st f with
    ⟨hfs, heq⟩ | ⟨fsize, hfs, htp, heq⟩ | ⟨fsize, hfs, htp, hr, heq⟩ |
    ⟨fsize, hfs, htp, hr, heq⟩ | ⟨fsize, hfs, htp, hr, heq⟩
  · rw [heq] at h; injection h with h; subst h; exact hpre
  · rw [heq] at h; injection h with h; subst h; exact hpre
  · rw [heq] at h; exact absurd h (by simp)
  · rw [heq] at h; injection h with h; subst h
    intro ev hev
    rcases List.mem_append.1 hev with hev1 | hev2
    · exact hpre ev hev1
    · exact drf_events_minOk _ _ _ _ _ _ _ _ ev hev2
  · rw [heq] at h; injection h with h; subst h
    intro ev hev
    rcases List.mem_append.1 hev with hev1 | hev2
    · exact hpre ev hev1
    · exact drf_events_minOk _ _ _ _ _ _ _ _ ev hev2

theorem filesFold_events_minOk (cfg : Config) (oracle : String → Nat) (host : String)
    (m : Meeting) :
    ∀ (files : List RecFile) (st st' : RunState),
      files.foldlM (stepFile cfg oracle host m) st = some st' →
      (∀ ev ∈ st.events, transferMinOk cfg ev) →
      ∀ ev ∈ st'.events, transferMinOk cfg ev := by
  intro files
  induction files with
  | nil =>
    intro st st' h hpre
    simp only [List.foldlM_nil] at h
    injection h with h
    subst h
    exact hpre
  | cons f rest ih =>
    intro st st' h hpre
    rw [List.foldlM_cons] at h
    cases hsf : stepFile cfg oracle host m st f with
    | none => rw [hsf] at h; exact absurd h (by simp)
    | some st1 =>
      rw [hsf] at h
      simp at h
      exact ih st1 st' h (stepFile_events_minOk cfg oracle host m st f st1 hsf hpre)

theorem stepMeeting_events_minOk (cfg : Config) (oracle : String → Nat) (host : String)
    (st : RunState) (m : Meeting) (st' : RunState)
    (h : stepMeeting cfg oracle host st m = some st')
    (hpre : ∀ ev ∈ st.events, transferMinOk cfg ev) :
    ∀ ev ∈ st'.events, transferMinOk cfg ev := by
  unfold stepMeeting at h
  by_cases htp : topicPassesB cfg.topics m.topic = true
  · rw [if_pos htp] at h
    exact filesFold_events_minOk cfg oracle host m (filesOf cfg m) st st' h hpre
  · rw [if_neg htp] at h
    injection h with h
    subst h
    exact hpre

theorem run_events_minOk (cfg : Config) (oracle : String → Nat) :
    ∀ (meetings : List Meeting) (host : String) (st st' : RunState),
      meetings.foldlM (stepMeeting cfg oracle host) st = some st' →
      (∀ ev ∈ st.events, transferMinOk cfg ev) →
      ∀ ev ∈ st'.events, transferMinOk cfg ev := by
  intro meetings
  induction meetings with
  | nil =>
    intro host st st' h hpre
    simp only [List.foldlM_nil] at h
    injection h with h
    subst h
    exact hpre
  | cons m rest ih =>
    intro host st st' h hpre
    rw [List.foldlM_cons] at h
    cases hsm : stepMeeting cfg oracle host st m with
    | none => rw [hsm] at h; exact absurd h (by simp)
    | some st1 =>
      rw [hsm] at h
      simp at h
      exact ih host st1 st' h (stepMeeting_events_minOk cfg oracle host st m st1 hsm hpre)

theorem stepFile_count (cfg : Config) (oracle : String → Nat) (host : String) (m : Meeting)
    (st : RunState) (f : RecFile) (st' : RunState)
    (h : stepFile cfg oracle host m st f = some st') :
    st'.fileCount + st'.skippedCount
      = st.fileCount + st.skippedCount
        + (if f.fileSize.isSome && typePassesB cfg.fileTypes f.fileType then 1 else 0) := by
  rcases stepFile_cases cfg oracle host m st f with
    ⟨hfs, heq⟩ | ⟨fsize, hfs, htp, heq⟩ | ⟨fsize, hfs, htp, hr, heq⟩ |
    ⟨fsize, hfs, htp, hr, heq⟩ | ⟨fsize, hfs, htp, hr, heq⟩
  · rw [heq] at h; injection h with h; subst h; simp [hfs]
  · rw [heq] at h; injection h with h; subst h; simp [hfs, htp]
  · rw [heq] at h; exact absurd h (by simp)
  · rw [heq] at h; injection h with h; subst h; simp [hfs, htp]; omega
  · rw [heq] at h; injection h with h; subst h; simp [hfs, htp]; omega

theorem filesFold_count (cfg : Config) (oracle : String → Nat) (host : String) (m : Meeting) :
    ∀ (files : List RecFile) (st st' : RunState),
      files.foldlM (stepFile cfg oracle host m) st = some st' →
      st'.fileCount + st'.skippedCount
        = st.fileCount + st.skippedCount
          + (files.filter
              (fun f => f.fileSize.isSome && typePassesB cfg.fileTypes f.fileType)).length := by
  intro files
  induction files with
  | nil =>
    intro st st' h
    simp only [List.foldlM_nil] at h
    injection h with h
    subst h
    simp
  | cons f rest ih =>
    intro st st' h
    rw [List.foldlM_cons] at h
    cases hsf : stepFile cfg oracle host m st f with
    | none => rw [hsf] at h; exact absurd h (by simp)
    | some st1 =>
      rw [hsf] at h
      simp at h
      have h1 := stepFile_count cfg oracle host m st f st1 hsf
      have h2 := ih st1 st' h
      by_cases hc : (f.fileSize.isSome && typePassesB cfg.fileTypes f.fileType) = true
      · simp only [List.filter_cons, hc, if_true, List.length_cons] at *
        omega
      · have hc2 : (f.fileSize.isSome && typePassesB cfg.fileTypes f.fileType) = false := by
          cases hcc : (f.fileSize.isSome && typePassesB cfg.fileTypes f.fileType)
          · rfl
          · exact absurd hcc hc
        simp only [List.filter_cons, hc2, Bool.false_eq_true, if_false] at *
        omega

theorem stepMeeting_count (cfg : Config) (oracle : String → Nat) (host : String)
    (st : RunState) (m : Meeting) (st' : RunState)
    (h : stepMeeting cfg oracle host st m = some st') :
    st'.fileCount + st'.skippedCount
      = st.fileCount + st.skippedCount
        + (if topicPassesB cfg.topics m.topic then
            ((filesOf cfg m).filter
              (fun f => f.fileSize.isSome && typePassesB cfg.fileTypes f.fileType)).length
           else 0) := by
  unfold stepMeeting at h
  by_cases htp : topicPassesB cfg.topics m.topic = true
  · rw [if_pos htp] at h
    rw [if_pos htp]
    exact filesFold_count cfg oracle host m (filesOf cfg m) st st' h
  · rw [if_neg htp] at h
    injection h with h
    subst h
    have htp2 : topicPassesB cfg.topics m.topic = false := by
      cases hcc : topicPassesB cfg.topics m.topic
      · rfl
      · exact absurd hcc htp
    simp [htp2]

theorem countedFiles_cons (cfg : Config) (m : Meeting) (ms : List Meeting) :
    countedFiles cfg (m :: ms)
      = (if topicPassesB cfg.topics m.topic then
          ((filesOf cfg m).filter
            (fun f => f.fileSize.isSome && typePassesB cfg.fileTypes f.fileType)).length
         else 0) + countedFiles cfg ms := by
  by_cases htp : topicPassesB cfg.topics m.topic = true
  · simp [countedFiles, List.filter_cons, htp]
  · have htp2 : topicPassesB cfg.topics m.topic = false := by
      cases hcc : topicPassesB cfg.topics m.topic
      · rfl
      · exact absurd hcc htp
    simp [countedFiles, List.filter_cons, htp2]

theorem meetingsFold_count (cfg : Config) (oracle : String → Nat) (host : String) :
    ∀ (meetings : List Meeting) (st st' : RunState),
      meetings.foldlM (stepMeeting cfg oracle host) st = some st' →
      st'.fileCount + st'.skippedCount
        = st.fileCount + st.skippedCount + countedFiles cfg meetings := by
  intro meetings
  induction meetings with
  | nil =>
    intro st st' h
    simp only [List.foldlM_nil] at h
    injection h with h
    subst h
    simp [countedFiles]
  | cons m rest ih =>
    intro st st' h
    rw [List.foldlM_cons] at h
    cases hsm : stepMeeting cfg oracle host st m with
    | none => rw [hsm] at h; exact absurd h (by simp)
    | some st1 =>
      rw [hsm] at h
      simp at h
      have h1 := stepMeeting_count cfg oracle host st m st1 hsm
      have h2 := ih st1 st' h
      rw [countedFiles_cons]
      omega

/-- C8: a recording file smaller than the configured minimum
(`MIN_FILE_SIZE` megabytes) is declined by `download_recording_file` with no
filesystem change and no events (so it is never written to disk and adds
nothing to the byte total); in the enumeration loop such a file increments
exactly the skipped counter; and over a whole run, every transfer event is
for a file of at least the minimum size. -/
theorem claim_C8 (cfg : Config) (fs : Fs) (url host file_name topic : String)
    (file_size actual : Nat)
    (hsmall : file_size < cfg.minFileSize * 1024 * 1024) :
    download_recording_file cfg fs url host file_name file_size topic actual
        = ⟨some false, fs, [], sanitizeName file_name, ""⟩
      ∧ (∀ (oracle : String → Nat) (m : Meeting) (st : RunState) (f : RecFile)
          (st' : RunState),
          f.fileSize = some file_size → typePassesB cfg.fileTypes f.fileType = true →
          stepFile cfg oracle host m st f = some st' →
          st' = ⟨st.fileCount, st.totalSize, st.skippedCount + 1, st.fs, st.events⟩)
      ∧ (∀ (oracle : String → Nat) (meetings : List Meeting) (fs0 : Fs) (st' : RunState),
          download_recordings_from_meetings cfg oracle meetings host fs0 = some st' →
          ∀ ev ∈ st'.events, transferMinOk cfg ev) := by
  have hsmalleq : ∀ (fs2 : Fs) (url2 fname2 topic2 : String) (actual2 : Nat),
      download_recording_file cfg fs2 url2 host fname2 file_size topic2 actual2
        = ⟨some false, fs2, [], sanitizeName fname2, ""⟩ := by
    intro fs2 url2 fname2 topic2 actual2
    simp [download_recording_file, hsmall]
  refine ⟨hsmalleq fs url file_name topic actual, ?_, ?_⟩
  · intro oracle m st f st' hfs htp hstep
    rcases stepFile_cases cfg oracle host m st f with
      ⟨hfs2, heq⟩ | ⟨fsize, hfs2, htp2, heq⟩ | ⟨fsize, hfs2, htp2, hr, heq⟩ |
      ⟨fsize, hfs2, htp2, hr, heq⟩ | ⟨fsize, hfs2, htp2, hr, heq⟩
    · rw [hfs] at hfs2; exact absurd hfs2 (by simp)
    · rw [hfs] at hfs2
      injection hfs2 with hfq
      rw [htp] at htp2
      exact absurd htp2 (by simp)
    · rw [hfs] at hfs2
      injection hfs2 with hfq
      subst hfq
      rw [hsmalleq] at hr
      exact absurd hr (by simp)
    · rw [hfs] at hfs2
      injection hfs2 with hfq
      subst hfq
      rw [hsmalleq] at hr
      exact absurd hr (by simp)
    · rw [hfs] at hfs2
      injection hfs2 with hfq
      subst hfq
      rw [heq] at hstep
      injection hstep with hstep
      subst hstep
      simp [hsmalleq]
  · intro oracle meetings fs0 st' hrun
    exact run_events_minOk cfg oracle meetings host ⟨0, 0, 0, fs0, []⟩ st' hrun
      (by intro ev hev; simp at hev)

/-- Witness for C8: a 10-byte file under a 1 MB minimum is declined with no
filesystem change and no events. -/
theorem claim_C8_witness :
    download_recording_file ⟨1, 0, false, false, true, false, [], []⟩ [] "u" "h" "a.mp4" 10 "t" 10
      = ⟨some false, [], [], "a.mp4", ""⟩ :=
  (claim_C8 ⟨1, 0, false, false, true, false, [], []⟩ [] "u" "h" "a.mp4" "t" 10 10
    (by decide)).1

/-- C10: at the end of a completed run, `file_count + skipped_count` equals
exactly the number of recording files that were handed to the downloader —
files of topic-passing meetings that carry a `file_size` and pass the type
filter — so a file skipped for a missing `file_size`, a filtered-out type,
or an excluded topic is counted neither as downloaded nor as skipped;
moreover the downloader declines a file (returns `False`, the outcome
counted as skipped) exactly when its size is below the minimum or the
resolved destination already holds a file within the size tolerance. -/
theorem claim_C10 (cfg : Config) (oracle : String → Nat) (meetings : List Meeting)
    (host : String) (fs0 : Fs) (st' : RunState)
    (hrun : download_recordings_from_meetings cfg oracle meetings host fs0 = some st') :
    st'.fileCount + st'.skippedCount = countedFiles cfg meetings
    ∧ (∀ (fs : Fs) (url file_name topic : String) (file_size actual : Nat),
        (download_recording_file cfg fs url host file_name file_size topic actual).ret
            = some false
          ↔ (file_size < cfg.minFileSize * 1024 * 1024
             ∨ ∃ sz, fsLookup fs (resolvedPath cfg fs host file_name topic) = some sz
                 ∧ sizeDist sz file_size ≤ cfg.tolerance)) := by
  constructor
  · have h := meetingsFold_count cfg oracle host meetings ⟨0, 0, 0, fs0, []⟩ st' hrun
    simpa using h
  · intro fs url file_name topic file_size actual
    rcases drf_cases cfg fs url host file_name topic file_size actual with
      ⟨hs, heq⟩ | ⟨hmin, sz, hl, ht, heq⟩ | ⟨hmin, sz, hl, ht, heq⟩ | ⟨hmin, hl, heq⟩
    · rw [heq]
      exact ⟨fun _ => Or.inl hs, fun _ => rfl⟩
    · rw [heq]
      exact ⟨fun _ => Or.inr ⟨sz, hl, ht⟩, fun _ => rfl⟩
    · constructor
      · intro hret
        rw [heq] at hret
        rcases dlStep_cases cfg (fsErase fs (resolvedPath cfg fs host file_name topic))
          [FsEvent.removed (resolvedPath cfg fs host file_name topic)]
          (resolvedName cfg fs host file_name topic) (resolvedPath cfg fs host file_name topic)
          url file_size actual with ⟨hm, heq2⟩ | ⟨hm, heq2⟩ <;> rw [heq2] at hret <;> simp at hret
      · rintro (h | ⟨sz2, hl2, ht2⟩)
        · omega
        · rw [hl] at hl2
          injection hl2 with hl2
          subst hl2
          omega
    · constructor
      · intro hret
        rw [heq] at hret
        rcases dlStep_cases cfg fs []
          (resolvedName cfg fs host file_name topic) (resolvedPath cfg fs host file_name topic)
          url file_size actual with ⟨hm, heq2⟩ | ⟨hm, heq2⟩ <;> rw [heq2] at hret <;> simp at hret
      · rintro (h | ⟨sz2, hl2, ht2⟩)
        · omega
        · rw [hl] at hl2
          exact absurd hl2 (by simp)

/-- Witness for C10: a one-meeting, one-file run downloads one file and
skips none, matching the counted-files total. -/
theorem claim_C10_witness :
    (RunState.mk 1 100 0 [("h/T.mp4", 100)]
        [FsEvent.transfer "u" "h/T.mp4.tmp" 100,
         FsEvent.renamed "h/T.mp4.tmp" "h/T.mp4"]).fileCount
      + (RunState.mk 1 100 0 [("h/T.mp4", 100)]
          [FsEvent.transfer "u" "h/T.mp4.tmp" 100,
           FsEvent.renamed "h/T.mp4.tmp" "h/T.mp4"]).skippedCount
      = countedFiles scenCfg
          [⟨"T", [⟨"id", "MP4", some "mp4", none, some 100, "s", none, "u"⟩], []⟩] :=
  (claim_C10 scenCfg (fun _ => 100)
    [⟨"T", [⟨"id", "MP4", some "mp4", none, some 100, "s", none, "u"⟩], []⟩] "h" []
    (RunState.mk 1 100 0 [("h/T.mp4", 100)]
      [FsEvent.transfer "u" "h/T.mp4.tmp" 100,
       FsEvent.renamed "h/T.mp4.tmp" "h/T.mp4"])
    (by decide)).1

/-- C6 is false as stated: with the topic filter `{"Weekly Sync"}`, a
meeting whose topic is `"weekly-sync"` is excluded, not included — the code
compares the meeting's literal topic and the meeting's topic's slug against
the configured set, and `slugify "weekly-sync" = "weekly-sync"` (a slug is
lower-case, so it can never equal `"Weekly Sync"`), which is not in the
set. -/
theorem claim_C6_counterexample :
    topicPassesB ["Weekly Sync"] "weekly-sync" = false
      ∧ slugify "weekly-sync" = "weekly-sync" := by
  decide

/-- C6 (amended): topic filtering includes a meeting exactly when the
configured set is empty, or contains the literal topic, or contains the
slugified topic; an excluded meeting leaves the run state untouched.  Slug
matching works with the slug in the configuration: with the filter
`{"weekly-sync"}` a meeting with topic `"Weekly Sync"` is included; with the
filter `{"Weekly Sync"}` the topics `"Weekly Sync"` is included while
`"weekly-sync"` and `"Other"` are excluded. -/
theorem claim_C6_amended :
    (∀ (topics : List String) (t : String),
        topicPassesB topics t = true ↔ (topics = [] ∨ t ∈ topics ∨ slugify t ∈ topics))
      ∧ (∀ (cfg : Config) (oracle : String → Nat) (host : String) (st : RunState) (m : Meeting),
          topicPassesB cfg.topics m.topic = false →
          stepMeeting cfg oracle host st m = some st)
      ∧ topicPassesB ["weekly-sync"] "Weekly Sync" = true
      ∧ topicPassesB ["Weekly Sync"] "Weekly Sync" = true
      ∧ topicPassesB ["Weekly Sync"] "weekly-sync" = false
      ∧ topicPassesB ["Weekly Sync"] "Other" = false := by
  refine ⟨?_, ?_, by decide, by decide, by decide, by decide⟩
  · intro topics t
    simp [topicPassesB, List.isEmpty_iff, or_assoc]
  · intro cfg oracle host st m hf
    simp [stepMeeting, hf]

/-- C7 is false as stated: when the flag is set and the start date is a
Friday (day 4 with day 0 a Monday, Python's `weekday() == 4`), the script
adds **two** days to the end date, not one. -/
theorem claim_C7_counterexample :
    checkFridayAdjust true 4 10 = 12
      ∧ ¬ checkFridayAdjust true 4 10 = 10 + 1
      ∧ (4 : Int).emod 7 = 4 := by
  decide

/-- C7 (amended): when `CHECK_FRIDAY_WEEKENDS` is enabled and the start
date falls on a Friday, two days are added to the end date; otherwise the
end date is unchanged. -/
theorem claim_C7_amended (b : Bool) (from_date to_date : Int) :
    (b = true → from_date.emod 7 = 4 → checkFridayAdjust b from_date to_date = to_date + 2)
      ∧ (¬ (b = true ∧ from_date.emod 7 = 4) →
          checkFridayAdjust b from_date to_date = to_date) := by
  constructor
  · intro hb hf
    simp [checkFridayAdjust, hb, hf]
  · intro hn
    have hc : ¬ ((b && (from_date.emod 7 == 4)) = true) := by
      simp only [Bool.and_eq_true, beq_iff_eq]
      exact hn
    simp [checkFridayAdjust, hc]

/-- Witness for the amended C7: a Friday start gets two days added; a
Saturday start is unchanged. -/
theorem claim_C7_witness :
    checkFridayAdjust true 4 10 = 10 + 2 ∧ checkFridayAdjust true 5 10 = 10 :=
  ⟨(claim_C7_amended true 4 10).1 rfl (by decide),
   (claim_C7_amended true 5 10).2 (by decide)⟩

theorem containsList_append_right (n l1 l2 : List Char) (h : containsList n l2 = true) :
    containsList n (l1 ++ l2) = true := by
  induction l1 with
  | nil => simpa using h
  | cons c t ih =>
    simp only [List.cons_append, containsList, Bool.or_eq_true]
    exact Or.inr ih

theorem stillProcessingEntry_contains (topic : String) :
    containsSub (stillProcessingEntry topic) "Still Processing" = true := by
  unfold containsSub stillProcessingEntry
  simp only [String.data_append]
  exact containsList_append_right _ _ _ (by decide)

theorem notFoundEntry_contains (topic : String) :
    containsSub (notFoundEntry topic) "Not Found" = true := by
  unfold containsSub notFoundEntry
  simp only [String.data_append]
  exact containsList_append_right _ _ _ (by decide)

/-- C4: fetching one meeting reference has exactly these outcomes — on
success the record is prepended to the remaining enumeration's output; on an
error whose text contains `"3301"` the skipped-meetings report gains the
still-processing entry (whose text contains `"Still Processing"`) and
enumeration continues; on an error containing `"404"` (and not `"3301"`,
which line 213 tests first) it gains the not-found entry (whose text
contains `"Not Found"`) and enumeration continues; any other error
propagates and aborts the entire enumeration. -/
theorem claim_C4 (fetch : String → Except String Meeting) (uuid topic : String)
    (rest : List (String × String)) :
    (∀ m, fetch uuid = Except.ok m →
      get_meetings fetch ((uuid, topic) :: rest)
        = (get_meetings fetch rest).map (fun p => (m :: p.1, p.2)))
    ∧ (∀ e, fetch uuid = Except.error e → containsSub e "3301" = true →
        get_meetings fetch ((uuid, topic) :: rest)
            = (get_meetings fetch rest).map
                (fun p => (p.1, stillProcessingEntry topic :: p.2))
          ∧ containsSub (stillProcessingEntry topic) "Still Processing" = true)
    ∧ (∀ e, fetch uuid = Except.error e → containsSub e "3301" = false →
        containsSub e "404" = true →
        get_meetings fetch ((uuid, topic) :: rest)
            = (get_meetings fetch rest).map (fun p => (p.1, notFoundEntry topic :: p.2))
          ∧ containsSub (notFoundEntry topic) "Not Found" = true)
    ∧ (∀ e, fetch uuid = Except.error e → containsSub e "3301" = false →
        containsSub e "404" = false →
        get_meetings fetch ((uuid, topic) :: rest) = Except.error e) := by
  refine ⟨?_, ?_, ?_, ?_⟩
  · intro m hm
    simp only [get_meetings, hm]
    cases hres : get_meetings fetch rest with
    | ok p => cases p; simp [Except.map]
    | error e2 => simp [Except.map]
  · intro e he h3301
    refine ⟨?_, stillProcessingEntry_contains topic⟩
    simp only [get_meetings, he, h3301, if_true]
    cases hres : get_meetings fetch rest with
    | ok p => cases p; simp [Except.map]
    | error e2 => simp [Except.map]
  · intro e he h3301 h404
    refine ⟨?_, notFoundEntry_contains topic⟩
    simp only [get_meetings, he, h3301, Bool.false_eq_true, if_false, h404, if_true]
    cases hres : get_meetings fetch rest with
    | ok p => cases p; simp [Except.map]
    | error e2 => simp [Except.map]
  · intro e he h3301 h404
    simp only [get_meetings, he, h3301, h404, Bool.false_eq_true, if_false]

/-- Witness for C4: a fetch that fails with an error containing `3301`
yields no meetings and one still-processing report entry. -/
theorem claim_C4_witness :
    get_meetings (fun _ => Except.error "Error 3301 processing") [("u", "T")]
      = Except.ok ([], [stillProcessingEntry "T"]) := by
  rw [((claim_C4 (fun _ => Except.error "Error 3301 processing") "u" "T" []).2.1
    "Error 3301 processing" rfl (by decide)).1]
  rfl

theorem mw_nil (s e : Int) (h : ¬ s ≤ e) : meetingWindows s e = [] := by
  rw [meetingWindows]
  simp [h]

theorem mw_cons (s e : Int) (h : s ≤ e) :
    meetingWindows s e = (s, min (s + 29) e) :: meetingWindows (min (s + 29) e + 1) e := by
  rw [meetingWindows]
  simp [h]

theorem mw_mem (s e : Int) :
    ∀ w ∈ meetingWindows s e, s ≤ w.1 ∧ w.1 ≤ w.2 ∧ w.2 ≤ e ∧ w.2 - w.1 ≤ 29 := by
  induction s, e using meetingWindows.induct with
  | case1 s e h ih =>
    intro w hw
    rw [mw_cons s e h] at hw
    rcases List.mem_cons.1 hw with rfl | hw2
    · simp only
      omega
    · have := ih w hw2
      omega
  | case2 s e h =>
    intro w hw
    rw [mw_nil s e h] at hw
    simp at hw

theorem mw_cover (s e d : Int) :
    (∃ w ∈ meetingWindows s e, w.1 ≤ d ∧ d ≤ w.2) ↔ (s ≤ d ∧ d ≤ e) := by
  induction s, e using meetingWindows.induct with
  | case1 s e h ih =>
    rw [mw_cons s e h]
    constructor
    · rintro ⟨w, hw, hd1, hd2⟩
      rcases List.mem_cons.1 hw with rfl | hw2
      · simp only at hd1 hd2
        omega
      · have := ih.1 ⟨w, hw2, hd1, hd2⟩
        omega
    · rintro ⟨h1, h2⟩
      by_cases hd : d ≤ min (s + 29) e
      · exact ⟨(s, min (s + 29) e), List.mem_cons_self _ _, h1, hd⟩
      · obtain ⟨w, hw, hh⟩ := ih.2 ⟨by omega, h2⟩
        exact ⟨w, List.mem_cons_of_mem _ hw, hh⟩
  | case2 s e h =>
    rw [mw_nil s e h]
    simp
    omega

theorem mw_chain (s e : Int) :
    (meetingWindows s e).Chain' (fun w w2 => w2.1 = w.2 + 1) := by
  induction s, e using meetingWindows.induct with
  | case1 s e h ih =>
    rw [mw_cons s e h]
    rw [List.chain'_cons']
    refine ⟨?_, ih⟩
    intro w2 hw2
    by_cases h2 : min (s + 29) e + 1 ≤ e
    · rw [mw_cons _ _ h2] at hw2
      simp at hw2
      subst hw2
      simp
    · rw [mw_nil _ _ h2] at hw2
      simp at hw2
  | case2 s e h =>
    rw [mw_nil s e h]
    exact List.chain'_nil

theorem mw_pairwise_lt (s e : Int) :
    (meetingWindows s e).Pairwise (fun w w2 => w.2 < w2.1) := by
  induction s, e using meetingWindows.induct with
  | case1 s e h ih =>
    rw [mw_cons s e h]
    refine List.Pairwise.cons ?_ ih
    intro w2 hw2
    have := mw_mem _ _ w2 hw2
    simp only
    omega
  | case2 s e h =>
    rw [mw_nil s e h]
    exact List.Pairwise.nil

theorem mw_length (s e : Int) (h : 30 ≤ e - s) : 2 ≤ (meetingWindows s e).length := by
  have h1 : s ≤ e := by omega
  rw [mw_cons s e h1]
  have h2 : min (s + 29) e + 1 ≤ e := by omega
  rw [mw_cons _ _ h2]
  simp

/-- C2: for a range `[s, e]` with `s ≤ e`, the windows generated by
`get_meeting_uuids` (1) cover exactly the days of `[s, e]` (no gaps), (2)
each span at most 30 days inclusive, (3) are consecutive (each window
starts the day after the previous one ends), (4) are pairwise disjoint (no
overlaps), and (5) a range spanning more than 30 days (`e - s ≥ 30`, i.e.
more than 30 inclusive days) yields more than one window. -/
theorem claim_C2 (s e : Int) (h : s ≤ e) :
    (∀ d : Int, (∃ w ∈ meetingWindows s e, w.1 ≤ d ∧ d ≤ w.2) ↔ (s ≤ d ∧ d ≤ e))
      ∧ (∀ w ∈ meetingWindows s e, w.1 ≤ w.2 ∧ w.2 - w.1 + 1 ≤ 30)
      ∧ (meetingWindows s e).Chain' (fun w w2 => w2.1 = w.2 + 1)
      ∧ (meetingWindows s e).Pairwise
          (fun w w2 => ∀ d : Int, ¬ (w.1 ≤ d ∧ d ≤ w.2 ∧ w2.1 ≤ d ∧ d ≤ w2.2))
      ∧ (30 ≤ e - s → 2 ≤ (meetingWindows s e).length) := by
  refine ⟨fun d => mw_cover s e d, ?_, mw_chain s e, ?_, fun h30 => mw_length s e h30⟩
  · intro w hw
    obtain ⟨h1, h2, h3, h4⟩ := mw_mem s e w hw
    exact ⟨h2, by omega⟩
  · refine (mw_pairwise_lt s e).imp ?_
    intro a b hab d hcon
    obtain ⟨h1, h2, h3, h4⟩ := hcon
    omega

/-- Witness for C2: the 46-day range `[0, 45]` yields more than one window. -/
theorem claim_C2_witness : 2 ≤ (meetingWindows 0 45).length :=
  (claim_C2 0 45 (by decide)).2.2.2.2 (by decide)

theorem decLtB_iff (a b : Dec) : decLtB a b = true ↔ decValQ a < decValQ b := by
  unfold decLtB decValQ
  rw [decide_eq_true_eq]
  rw [div_lt_div_iff₀ (by positivity) (by positivity)]
  constructor
  · intro h
    exact_mod_cast h
  · intro h
    exact_mod_cast h

theorem procLine_inv (st : Option Dec × Option Dec × List CutSeg) (line : String)
    (st' : Option Dec × Option Dec × List CutSeg)
    (h : procLine st line = some st')
    (hpre : ∀ sg ∈ st.2.2, decLtB sg.start sg.stop = true) :
    ∀ sg ∈ st'.2.2, decLtB sg.start sg.stop = true := by
  obtain ⟨sOpt, eOpt, segs⟩ := st
  by_cases h1 : containsSub line "[silencedetect @" = true
  · by_cases h2 : containsSub line "silence_start" = true
    · cases hp : (splitCh ':' line.data)[1]? with
      | none =>
        simp only [procLine, h1, h2, hp, if_true] at h
        simp at h
      | some piece =>
        cases hv : parseDec (stripWs piece) with
        | none =>
          simp only [procLine, h1, h2, hp, hv, if_true] at h
          simp at h
        | some v =>
          simp only [procLine, h1, h2, hp, hv, if_true] at h
          injection h with h
          subst h
          exact hpre
    · by_cases h3 : containsSub line "silence_end" = true
      · cases hp : (splitCh ':' line.data)[1]? with
        | none =>
          simp only [procLine, h1, h2, h3, hp, if_true] at h
          simp at h
        | some piece =>
          cases hv : parseDec (stripWs ((splitCh '|' piece).headD [])) with
          | none =>
            simp only [procLine, h1, h2, h3, hp, hv, if_true] at h
            simp at h
          | some v =>
            cases hs : sOpt with
            | some sv =>
              by_cases hlt : decLtB sv v = true
              · simp only [procLine, h1, h2, h3, hp, hv, hs, hlt, if_true] at h
                injection h with h
                subst h
                intro sg hsg
                simp only at hsg
                rcases List.mem_append.1 hsg with hin | hin
                · exact hpre sg hin
                · simp at hin
                  subst hin
                  exact hlt
              · simp only [procLine, h1, h2, h3, hp, hv, hs, hlt, if_true,
                  Bool.false_eq_true, if_false] at h
                injection h with h
                subst h
                exact hpre
            | none =>
              simp only [procLine, h1, h2, h3, hp, hv, hs, if_true] at h
              injection h with h
              subst h
              exact hpre
      · simp only [procLine, h1, h2, h3, if_true] at h
        injection h with h
        subst h
        exact hpre
  · simp only [procLine, h1] at h
    injection h with h
    subst h
    exact hpre

theorem procLine_no_start (st : Option Dec × Option Dec × List CutSeg) (line : String)
    (st' : Option Dec × Option Dec × List CutSeg)
    (h : procLine st line = some st')
    (hline : containsSub line "silence_start" = false)
    (hpre : st.1 = none) :
    st'.1 = none ∧ st'.2.2 = st.2.2 := by
  obtain ⟨sOpt, eOpt, segs⟩ := st
  simp only at hpre
  subst hpre
  by_cases h1 : containsSub line "[silencedetect @" = true
  · by_cases h3 : containsSub line "silence_end" = true
    · cases hp : (splitCh ':' line.data)[1]? with
      | none =>
        simp only [procLine, h1, hline, h3, hp, if_true, Bool.false_eq_true, if_false] at h
        simp at h
      | some piece =>
        cases hv : parseDec (stripWs ((splitCh '|' piece).headD [])) with
        | none =>
          simp only [procLine, h1, hline, h3, hp, hv, if_true, Bool.false_eq_true, if_false] at h
          simp at h
        | some v =>
          simp only [procLine, h1, hline, h3, hp, hv, if_true, Bool.false_eq_true, if_false] at h
          injection h with h
          subst h
          exact ⟨rfl, rfl⟩
    · simp only [procLine, h1, hline, h3, if_true, Bool.false_eq_true, if_false] at h
      injection h with h
      subst h
      exact ⟨rfl, rfl⟩
  · simp only [procLine, h1] at h
    injection h with h
    subst h
    exact ⟨rfl, rfl⟩

theorem parseFold_inv :
    ∀ (lines : List String) (st res : Option Dec × Option Dec × List CutSeg),
      lines.foldlM procLine st = some res →
      (∀ sg ∈ st.2.2, decLtB sg.start sg.stop = true) →
      ∀ sg ∈ res.2.2, decLtB sg.start sg.stop = true := by
  intro lines
  induction lines with
  | nil =>
    intro st res h hpre
    simp only [List.foldlM_nil] at h
    injection h with h
    subst h
    exact hpre
  | cons line rest ih =>
    intro st res h hpre
    rw [List.foldlM_cons] at h
    cases hstep : procLine st line with
    | none => rw [hstep] at h; exact absurd h (by simp)
    | some st1 =>
      rw [hstep] at h
      simp at h
      exact ih st1 res h (procLine_inv st line st1 hstep hpre)

theorem parseFold_no_start :
    ∀ (lines : List String) (st res : Option Dec × Option Dec × List CutSeg),
      (∀ line ∈ lines, containsSub line "silence_start" = false) →
      st.1 = none →
      lines.foldlM procLine st = some res →
      res.2.2 = st.2.2 := by
  intro lines
  induction lines with
  | nil =>
    intro st res _ _ h
    simp only [List.foldlM_nil] at h
    injection h with h
    subst h
    rfl
  | cons line rest ih =>
    intro st res hlines hst h
    rw [List.foldlM_cons] at h
    cases hstep : procLine st line with
    | none => rw [hstep] at h; exact absurd h (by simp)
    | some st1 =>
      rw [hstep] at h
      simp at h
      obtain ⟨h1, h2⟩ := procLine_no_start st line st1 hstep
        (hlines line (List.mem_cons_self _ _)) hst
      rw [ih st1 res (fun l hl => hlines l (List.mem_cons_of_mem _ hl)) h1 h]
      exact h2

/-- C9: the silence-log parser emits a segment only when a
`silence_end` value exceeds the pending `silence_start` value (so every
emitted segment has `end > start`, and a log with no `silence_start` marker
emits no segments at all), and the concrete scenario: a log with
`silence_start: 1.0` followed by `silence_end: 4.5 | silence_duration: 3.5`
yields exactly one cut segment `{start: 1.0, end: 4.5, name: ""}` (the
parsed decimals `10/10^1` and `45/10^1` have values `1` and `4.5`). -/
theorem claim_C9 :
    (∀ (lines : List String) (segs : List CutSeg), parseSilenceLog lines = some segs →
        ∀ sg ∈ segs, decValQ sg.start < decValQ sg.stop)
      ∧ (∀ (lines : List String) (segs : List CutSeg),
          (∀ line ∈ lines, containsSub line "silence_start" = false) →
          parseSilenceLog lines = some segs → segs = [])
      ∧ parseSilenceLog c9Lines = some [⟨⟨10, 1⟩, ⟨45, 1⟩, ""⟩]
      ∧ decValQ ⟨10, 1⟩ = 1 ∧ decValQ ⟨45, 1⟩ = 9 / 2 := by
  refine ⟨?_, ?_, by decide, by norm_num [decValQ], by norm_num [decValQ]⟩
  · intro lines segs h sg hsg
    unfold parseSilenceLog at h
    cases hfold : lines.foldlM procLine
        ((none : Option Dec), (none : Option Dec), ([] : List CutSeg)) with
    | none => rw [hfold] at h; exact absurd h (by simp)
    | some res =>
      rw [hfold] at h
      simp only [Option.map_some'] at h
      injection h with h
      subst h
      exact (decLtB_iff sg.start sg.stop).1
        (parseFold_inv lines _ res hfold (by intro sg2 hsg2; simp at hsg2) sg hsg)
  · intro lines segs hlines h
    unfold parseSilenceLog at h
    cases hfold : lines.foldlM procLine
        ((none : Option Dec), (none : Option Dec), ([] : List CutSeg)) with
    | none => rw [hfold] at h; exact absurd h (by simp)
    | some res =>
      rw [hfold] at h
      simp only [Option.map_some'] at h
      injection h with h
      subst h
      exact parseFold_no_start lines _ res hlines rfl hfold

/-- Witness for C9: the segment of the scenario log satisfies
`end > start`. -/
theorem claim_C9_witness : decValQ ⟨10, 1⟩ < decValQ ⟨45, 1⟩ :=
  (claim_C9.1 c9Lines [⟨⟨10, 1⟩, ⟨45, 1⟩, ""⟩] (by decide)) ⟨⟨10, 1⟩, ⟨45, 1⟩, ""⟩ (by simp)

/-- Witness for the amended C6: with the filter `{"Weekly Sync"}`, a
meeting with topic `"weekly-sync"` is excluded and leaves the run state
untouched. -/
theorem claim_C6_witness :
    stepMeeting ⟨0, 0, false, false, true, false, ["Weekly Sync"], []⟩ (fun _ => 0) "h"
      ⟨0, 0, 0, [], []⟩ ⟨"weekly-sync", [], []⟩ = some ⟨0, 0, 0, [], []⟩ :=
  claim_C6_amended.2.1 ⟨0, 0, false, false, true, false, ["Weekly Sync"], []⟩ (fun _ => 0) "h"
    ⟨0, 0, 0, [], []⟩ ⟨"weekly-sync", [], []⟩ (by decide)
